import Mathlib

/-!
Verification of the runtime schema-discovery and dynamic-invocation engine of
the `eagr` library, as a shallow embedding in Lean.

The development has three parts, mirroring the source files:

* `eagr/grpc_utils/response_translation.py` — the structured-value translator
  that flattens protobuf `Any`-style dictionaries;
* `eagr/reflection/grpc_reflection_interface.py` — the JSON-round-trip method
  invocation wrapper (retry policy via the `backoff` library, input population
  via `google.protobuf.json_format.ParseDict`);
* `eagr/reflection/reflection_descriptor_database.py` — the dependency-resolving
  registry builder that commits file descriptor protos into a descriptor pool
  in post-order over the dependency graph.

Python dictionaries are embedded as insertion-ordered association lists
(`List (String × _)`); Python sets of names as `List String` used only through
membership; exceptions as `Except`; the unbounded recursion of the registry
builder is given explicit fuel, with `none` denoting non-termination.
-/

namespace Eagr

/-! ## Part 1: the structured-value translator
    (`eagr/grpc_utils/response_translation.py`) -/

/-- Values of the decoded-JSON algebra handled by `response_translation`:
dictionaries (as produced by `json_format.MessageToDict`: insertion-ordered,
string keys, no duplicate keys), lists, and the `POD_TYPES` scalars
`int`, `float`, `str` (a Python `bool` is an `int`, so it falls under `vint`;
floats are carried as rationals, unchanged by the translator).  `vother`
stands for any runtime value outside this algebra (e.g. `None`), on which
`_get_clean_value` raises `AssertionError`. -/
inductive PyVal where
  | vint (n : Int)
  | vfloat (q : ℚ)
  | vstr (s : String)
  | vlist (elems : List PyVal)
  | vdict (entries : List (String × PyVal))
  | vother

/-- The exceptions `_get_clean_value` and `_get_clean_dict_value` can raise:
`AssertionError` for a value outside the algebra, `ValueError` for a tagged
dict whose remaining key set does not have exactly one element. -/
inductive TransErr where
  | assertionError
  | valueError
deriving Repr, DecidableEq

/-- `TYPE_KEY = "@type"` from `response_translation.py`. -/
def TYPE_KEY : String := "@type"

mutual

/-- `_get_clean_value`: dispatch on the runtime type of the value.  Dicts and
lists recurse; `POD_TYPES` scalars are returned unchanged; anything else is an
`AssertionError`. -/
def get_clean_value : PyVal → Except TransErr PyVal
  | .vdict entries => get_clean_dict_value entries
  | .vlist elems => get_clean_list_value elems
  | .vint n => .ok (.vint n)
  | .vfloat q => .ok (.vfloat q)
  | .vstr s => .ok (.vstr s)
  | .vother => .error .assertionError
termination_by v => (sizeOf v, 0)

/-- `_get_clean_dict_value`: `keys = set(dct.keys())` (Python dict keys are
distinct, so the key list of the association list plays the role of the set);
`is_flat_any_type = TYPE_KEY in keys and len(keys) == 2`.  If not flat,
project the dict dropping the type key; otherwise remove the type key, demand
exactly one remaining key (else `ValueError`), and return
`_get_clean_value(dct[remaining_key])`.  Under the guards (two entries, the
type key present, exactly one remaining key) the dict holds exactly one
non-`TYPE_KEY` entry, so cleaning the entries with the type key dropped yields
the one-element list `[(remaining_key, _get_clean_value(dct[remaining_key]))]`
and we return its value; the `[]` fallback is unreachable, as a Python
`KeyError` would be. -/
def get_clean_dict_value (entries : List (String × PyVal)) : Except TransErr PyVal :=
  let keys := entries.map Prod.fst
  let is_flat_any_type := keys.contains TYPE_KEY && keys.length == 2
  if !is_flat_any_type then
    project_dict_without_type entries
  else
    let remaining_keys := keys.filter (fun k => k ≠ TYPE_KEY)
    if remaining_keys.length ≠ 1 then
      .error .valueError
    else do
      let cleaned ← clean_dict_entries entries
      match cleaned with
      | e :: _ => .ok e.snd
      | [] => .error .assertionError
termination_by (sizeOf entries, 3)

/-- `_project_dict_without_type`: `{key: _get_clean_value(value) for key, value
in dct.items() if key != TYPE_KEY}`. -/
def project_dict_without_type (entries : List (String × PyVal)) : Except TransErr PyVal := do
  .ok (.vdict (← clean_dict_entries entries))
termination_by (sizeOf entries, 2)

/-- The dict comprehension of `_project_dict_without_type`, entry by entry in
insertion order, skipping the `TYPE_KEY` entry. -/
def clean_dict_entries : List (String × PyVal) → Except TransErr (List (String × PyVal))
  | [] => .ok []
  | (k, v) :: rest =>
    if k ≠ TYPE_KEY then do
      let v' ← get_clean_value v
      let vs ← clean_dict_entries rest
      .ok ((k, v') :: vs)
    else
      clean_dict_entries rest
termination_by l => (sizeOf l, 1)

/-- `_get_clean_list_value`: `[_get_clean_value(element) for element in
iterable]`. -/
def get_clean_list_value (elems : List PyVal) : Except TransErr PyVal := do
  .ok (.vlist (← clean_list_elems elems))
termination_by (sizeOf elems, 2)

/-- The list comprehension of `_get_clean_list_value`, element by element. -/
def clean_list_elems : List PyVal → Except TransErr (List PyVal)
  | [] => .ok []
  | v :: rest => do
    let v' ← get_clean_value v
    let vs ← clean_list_elems rest
    .ok (v' :: vs)
termination_by l => (sizeOf l, 1)

end

/-- All dictionaries inside a value have pairwise-distinct keys, as every
dictionary produced by Python's `MessageToDict` does. -/
inductive WFDicts : PyVal → Prop
  | vint (n : Int) : WFDicts (.vint n)
  | vfloat (q : ℚ) : WFDicts (.vfloat q)
  | vstr (s : String) : WFDicts (.vstr s)
  | vother : WFDicts .vother
  | vlist (elems : List PyVal) (h : ∀ v ∈ elems, WFDicts v) : WFDicts (.vlist elems)
  | vdict (entries : List (String × PyVal)) (hnd : (entries.map Prod.fst).Nodup)
      (h : ∀ e ∈ entries, WFDicts e.snd) : WFDicts (.vdict entries)

@[simp]
theorem except_bind_ok {α β ε : Type} (a : α) (f : α → Except ε β) :
    (Except.ok a : Except ε α) >>= f = f a := rfl

@[simp]
theorem except_bind_error {α β ε : Type} (e : ε) (f : α → Except ε β) :
    (Except.error e : Except ε α) >>= f = (Except.error e : Except ε β) := rfl

theorem clean_dict_entries_spec (entries : List (String × PyVal))
    (ents' : List (String × PyVal)) (h : clean_dict_entries entries = .ok ents') :
    ents'.map Prod.fst = (entries.map Prod.fst).filter (fun k => k ≠ TYPE_KEY) ∧
      ∀ k v, (k, v) ∈ entries → k ≠ TYPE_KEY →
        ∃ w, (k, w) ∈ ents' ∧ get_clean_value v = .ok w := by
  induction entries generalizing ents' with
  | nil =>
    simp [clean_dict_entries] at h
    subst h
    simp
  | cons e rest ih =>
    obtain ⟨k₀, v₀⟩ := e
    rw [clean_dict_entries] at h
    by_cases hk₀ : k₀ = TYPE_KEY
    · subst hk₀
      simp at h
      obtain ⟨hkeys, hmem⟩ := ih ents' h
      refine ⟨by simpa using hkeys, ?_⟩
      intro k v hkv hk
      rcases List.mem_cons.mp hkv with hkv | hkv
      · cases hkv; exact absurd rfl hk
      · exact hmem k v hkv hk
    · simp only [hk₀, if_neg, ne_eq, not_false_eq_true, if_true] at h
      cases hv₀ : get_clean_value v₀ with
      | error err => simp [hv₀] at h
      | ok w₀ =>
        cases hrest : clean_dict_entries rest with
        | error err => simp [hv₀, hrest] at h
        | ok vs =>
          simp [hv₀, hrest] at h
          subst h
          obtain ⟨hkeys, hmem⟩ := ih vs hrest
          refine ⟨by simp [hk₀, hkeys], ?_⟩
          intro k v hkv hk
          rcases List.mem_cons.mp hkv with hkv | hkv
          · cases hkv
            exact ⟨w₀, List.mem_cons_self .., hv₀⟩
          · obtain ⟨w, hw, hgw⟩ := hmem k v hkv hk
            exact ⟨w, List.mem_cons_of_mem _ hw, hgw⟩

theorem clean_dict_entries_error (entries : List (String × PyVal)) (err : TransErr)
    (h : clean_dict_entries entries = .error err) :
    ∃ e ∈ entries, get_clean_value e.snd = .error err := by
  induction entries with
  | nil => simp [clean_dict_entries] at h
  | cons e rest ih =>
    obtain ⟨k₀, v₀⟩ := e
    rw [clean_dict_entries] at h
    by_cases hk₀ : k₀ = TYPE_KEY
    · simp [hk₀] at h
      obtain ⟨e', he', hg⟩ := ih h
      exact ⟨e', List.mem_cons_of_mem _ he', hg⟩
    · simp only [hk₀, if_neg, ne_eq, not_false_eq_true, if_true] at h
      cases hv₀ : get_clean_value v₀ with
      | error err₀ =>
        simp [hv₀] at h
        subst h
        exact ⟨(k₀, v₀), List.mem_cons_self .., hv₀⟩
      | ok w₀ =>
        cases hrest : clean_dict_entries rest with
        | error err₀ =>
          simp [hv₀, hrest] at h
          subst h
          obtain ⟨e', he', hg⟩ := ih hrest
          exact ⟨e', List.mem_cons_of_mem _ he', hg⟩
        | ok vs => simp [hv₀, hrest] at h

theorem clean_list_elems_error (elems : List PyVal) (err : TransErr)
    (h : clean_list_elems elems = .error err) :
    ∃ v ∈ elems, get_clean_value v = .error err := by
  induction elems with
  | nil => simp [clean_list_elems] at h
  | cons v rest ih =>
    rw [clean_list_elems] at h
    cases hv : get_clean_value v with
    | error err₀ =>
      simp [hv] at h
      subst h
      exact ⟨v, List.mem_cons_self .., hv⟩
    | ok w =>
      cases hrest : clean_list_elems rest with
      | error err₀ =>
        simp [hv, hrest] at h
        subst h
        obtain ⟨v', hv', hg⟩ := ih hrest
        exact ⟨v', List.mem_cons_of_mem _ hv', hg⟩
      | ok vs => simp [hv, hrest] at h

/-- C5: for every dictionary with exactly two (distinct) keys, one of which is
the type-tag key `"@type"`, `_get_clean_dict_value` returns the recursively
translated value of the other key — the wrapping map is replaced entirely by
the unwrapped payload. -/
theorem C5_flat_any_unwraps (entries : List (String × PyVal)) (k : String) (v : PyVal)
    (hnd : (entries.map Prod.fst).Nodup) (hlen : entries.length = 2)
    (htag : TYPE_KEY ∈ entries.map Prod.fst)
    (hk : k ≠ TYPE_KEY) (hkv : (k, v) ∈ entries) :
    get_clean_dict_value entries = get_clean_value v := by
  rcases entries with _ | ⟨⟨k₁, v₁⟩, _ | ⟨⟨k₂, v₂⟩, _ | ⟨e₃, rest⟩⟩⟩ <;> simp at hlen
  simp only [List.map_cons, List.map_nil, List.nodup_cons, List.mem_cons,
    List.mem_singleton, List.not_mem_nil, or_false, not_or] at hnd htag hkv
  rcases htag with h₁ | h₂
  · subst h₁
    rcases hkv with hkv | hkv
    · cases hkv; exact absurd rfl hk
    · cases hkv
      simp [get_clean_dict_value, clean_dict_entries, hk]
      cases hgv : get_clean_value v <;> simp [hgv]
  · subst h₂
    rcases hkv with hkv | hkv
    · cases hkv
      simp [get_clean_dict_value, clean_dict_entries, hk]
      cases hgv : get_clean_value v <;> simp [hgv]
    · cases hkv; exact absurd rfl hk

/-- C6: for every dictionary containing the type-tag key plus two or more other
keys, the translator's result (when it succeeds) is the map with only the tag
key removed and every remaining key mapped to its recursively translated
value; and for every dictionary without the tag key, the result keeps the same
keys, each value recursively translated. -/
theorem C6_strip_tag_and_project (entries : List (String × PyVal))
    (hnd : (entries.map Prod.fst).Nodup) :
    (TYPE_KEY ∈ entries.map Prod.fst → 3 ≤ entries.length →
       ∀ res, get_clean_dict_value entries = .ok res →
         ∃ ents', res = .vdict ents' ∧
           ents'.map Prod.fst = (entries.map Prod.fst).filter (fun k => k ≠ TYPE_KEY) ∧
           ∀ k v, (k, v) ∈ entries → k ≠ TYPE_KEY →
             ∃ w, (k, w) ∈ ents' ∧ get_clean_value v = .ok w) ∧
    (TYPE_KEY ∉ entries.map Prod.fst →
       ∀ res, get_clean_dict_value entries = .ok res →
         ∃ ents', res = .vdict ents' ∧
           ents'.map Prod.fst = entries.map Prod.fst ∧
           ∀ k v, (k, v) ∈ entries →
             ∃ w, (k, w) ∈ ents' ∧ get_clean_value v = .ok w) := by
  constructor
  · intro htag hlen res hres
    rw [get_clean_dict_value] at hres
    have hflat : ((entries.map Prod.fst).contains TYPE_KEY &&
        (entries.map Prod.fst).length == 2) = false := by
      have : entries.length ≠ 2 := by omega
      simp [List.length_map, this]
    rw [hflat] at hres
    simp only [Bool.not_false, if_true] at hres
    rw [project_dict_without_type] at hres
    cases hce : clean_dict_entries entries with
    | error err => simp [hce] at hres
    | ok ents' =>
      simp [hce] at hres
      obtain ⟨hkeys, hmem⟩ := clean_dict_entries_spec entries ents' hce
      exact ⟨ents', hres.symm, hkeys, hmem⟩
  · intro htag res hres
    rw [get_clean_dict_value] at hres
    have hflat : ((entries.map Prod.fst).contains TYPE_KEY &&
        (entries.map Prod.fst).length == 2) = false := by
      simp [htag]
    rw [hflat] at hres
    simp only [Bool.not_false, if_true] at hres
    rw [project_dict_without_type] at hres
    cases hce : clean_dict_entries entries with
    | error err => simp [hce] at hres
    | ok ents' =>
      simp [hce] at hres
      obtain ⟨hkeys, hmem⟩ := clean_dict_entries_spec entries ents' hce
      refine ⟨ents', hres.symm, ?_, ?_⟩
      · rw [hkeys]
        apply List.filter_eq_self.mpr
        intro a ha
        simp only [ne_eq, decide_eq_true_eq]
        exact fun hcon => htag (hcon ▸ ha)
      · intro k v hkv
        exact hmem k v hkv (fun hcon => htag (hcon ▸ List.mem_map_of_mem Prod.fst hkv))

/-- With pairwise-distinct keys, a two-key dict containing the type-tag key has
exactly one remaining key after the tag key is removed. -/
theorem remaining_keys_length_one (keys : List String) (hnd : keys.Nodup)
    (hlen : keys.length = 2) (htag : TYPE_KEY ∈ keys) :
    (keys.filter (fun k => k ≠ TYPE_KEY)).length = 1 := by
  rcases keys with _ | ⟨a, _ | ⟨b, _ | ⟨c, rest⟩⟩⟩ <;> simp at hlen
  simp only [List.nodup_cons, List.mem_singleton, List.not_mem_nil, not_false_eq_true,
    and_true, List.mem_cons, or_false] at hnd htag
  rcases htag with rfl | rfl
  · have hb : b ≠ TYPE_KEY := fun hcon => hnd.1 hcon.symm
    simp [hb]
  · have ha : a ≠ TYPE_KEY := hnd.1
    simp [ha]

/-- On values all of whose dicts have distinct keys (as in any value coming
from `MessageToDict`), the cleaner never raises `ValueError`. -/
theorem C9_global (v : PyVal) (hwf : WFDicts v) :
    get_clean_value v ≠ .error .valueError := by
  induction hwf with
  | vint n => simp [get_clean_value]
  | vfloat q => simp [get_clean_value]
  | vstr s => simp [get_clean_value]
  | vother => simp [get_clean_value]
  | vlist elems h ih =>
    intro hcon
    rw [get_clean_value, get_clean_list_value] at hcon
    cases hce : clean_list_elems elems with
    | error err =>
      rw [hce] at hcon
      simp at hcon
      obtain ⟨v', hv', hg⟩ := clean_list_elems_error elems _ hce
      exact ih v' hv' (hcon ▸ hg)
    | ok vs => rw [hce] at hcon; simp at hcon
  | vdict entries hnd h ih =>
    intro hcon
    rw [get_clean_value, get_clean_dict_value] at hcon
    by_cases hflat : ((entries.map Prod.fst).contains TYPE_KEY &&
        (entries.map Prod.fst).length == 2) = true
    · rw [hflat] at hcon
      simp only [Bool.not_true, Bool.false_eq_true, if_false] at hcon
      obtain ⟨hc, hl⟩ := Bool.and_eq_true_iff.mp hflat
      have htag : TYPE_KEY ∈ entries.map Prod.fst := by
        simpa using hc
      have hlen : (entries.map Prod.fst).length = 2 := by
        simpa using hl
      have hrem := remaining_keys_length_one (entries.map Prod.fst) hnd hlen htag
      rw [hrem] at hcon
      simp only [ne_eq, not_true_eq_false, if_false, ite_false] at hcon
      cases hce : clean_dict_entries entries with
      | error err =>
        rw [hce] at hcon
        simp at hcon
        obtain ⟨e, he, hg⟩ := clean_dict_entries_error entries _ hce
        exact ih e he (hcon ▸ hg)
      | ok cleaned =>
        rw [hce] at hcon
        simp at hcon
        cases cleaned <;> simp at hcon
    · rw [Bool.not_eq_true] at hflat
      rw [hflat] at hcon
      simp only [Bool.not_false, if_true] at hcon
      rw [project_dict_without_type] at hcon
      cases hce : clean_dict_entries entries with
      | error err =>
        rw [hce] at hcon
        simp at hcon
        obtain ⟨e, he, hg⟩ := clean_dict_entries_error entries _ hce
        exact ih e he (hcon ▸ hg)
      | ok cleaned => rw [hce] at hcon; simp at hcon

/-- C9: the `ValueError` branch of `_get_clean_dict_value` guarded by
`len(remaining_keys) != 1` is unreachable: for every dictionary with exactly
two distinct keys one of which is the type-tag key, removing the tag key
leaves exactly one remaining key, and on any input value whose dictionaries
have distinct keys the cleaner never returns that `ValueError`. -/
theorem C9_value_error_branch_unreachable :
    (∀ entries : List (String × PyVal), (entries.map Prod.fst).Nodup →
        (entries.map Prod.fst).length = 2 → TYPE_KEY ∈ entries.map Prod.fst →
        ((entries.map Prod.fst).filter (fun k => k ≠ TYPE_KEY)).length = 1) ∧
    (∀ v, WFDicts v → get_clean_value v ≠ .error .valueError) :=
  ⟨fun _ hnd hlen htag => remaining_keys_length_one _ hnd hlen htag,
   fun v hwf => C9_global v hwf⟩

/-- Witness for C5: `{"@type": "...Int32Value", "value": 3}` translates to `3`. -/
theorem C5_witness :
    get_clean_dict_value [(TYPE_KEY, PyVal.vstr "type.googleapis.com/google.protobuf.Int32Value"),
        ("value", PyVal.vint 3)] = .ok (.vint 3) := by
  have h := C5_flat_any_unwraps
    [(TYPE_KEY, PyVal.vstr "type.googleapis.com/google.protobuf.Int32Value"),
      ("value", PyVal.vint 3)]
    "value" (PyVal.vint 3) (by decide) rfl (by simp) (by decide) (by simp)
  rw [h]
  simp [get_clean_value]

/-- Witness for C6 at concrete inputs: a tagged three-key dict and an untagged
one-key dict. -/
theorem C6_witness :
    (∃ ents', (PyVal.vdict [("a", PyVal.vint 1), ("b", PyVal.vint 2)]) = PyVal.vdict ents' ∧
        ents'.map Prod.fst = (([(TYPE_KEY, PyVal.vstr "T"), ("a", PyVal.vint 1),
            ("b", PyVal.vint 2)].map Prod.fst).filter (fun k => k ≠ TYPE_KEY)) ∧
        ∀ k v, (k, v) ∈ [(TYPE_KEY, PyVal.vstr "T"), ("a", PyVal.vint 1), ("b", PyVal.vint 2)] →
          k ≠ TYPE_KEY → ∃ w, (k, w) ∈ ents' ∧ get_clean_value v = .ok w) ∧
    (∃ ents', (PyVal.vdict [("x", PyVal.vint 7)]) = PyVal.vdict ents' ∧
        ents'.map Prod.fst = [("x", PyVal.vint 7)].map Prod.fst ∧
        ∀ k v, (k, v) ∈ [("x", PyVal.vint 7)] →
          ∃ w, (k, w) ∈ ents' ∧ get_clean_value v = .ok w) := by
  constructor
  · refine (C6_strip_tag_and_project _ (by decide)).1 (by simp) (by simp) _ ?_
    simp [get_clean_dict_value, project_dict_without_type, clean_dict_entries,
      get_clean_value, TYPE_KEY]
  · refine (C6_strip_tag_and_project _ (by decide)).2 (by decide) _ ?_
    simp [get_clean_dict_value, project_dict_without_type, clean_dict_entries,
      get_clean_value, TYPE_KEY]

/-- Witness for C9 at a concrete two-key tagged dictionary. -/
theorem C9_witness :
    ((([(TYPE_KEY, PyVal.vstr "T"), ("value", PyVal.vint 3)].map
        (Prod.fst (β := PyVal))).filter (fun k => k ≠ TYPE_KEY)).length = 1) ∧
    get_clean_value (.vdict [(TYPE_KEY, .vstr "T"), ("value", .vint 3)]) ≠
      .error .valueError := by
  constructor
  · exact C9_value_error_branch_unreachable.1 _ (by decide) rfl (by simp)
  · refine C9_value_error_branch_unreachable.2 _ (WFDicts.vdict _ (by decide) ?_)
    intro e he
    simp at he
    rcases he with rfl | rfl
    · exact WFDicts.vstr _
    · exact WFDicts.vint _

/-! ## Part 2: the JSON-round-trip method invocation wrapper
    (`eagr/reflection/grpc_reflection_interface.py`) -/

/-- Status codes carried by `grpc.RpcError` transport errors; the claims need
the transient codes, `NOT_FOUND`, and one further code. -/
inductive GrpcStatus where
  | deadlineExceeded
  | unavailable
  | notFound
  | internal
deriving Repr, DecidableEq

/-- The exceptions that can flow out of the invocation body: `grpc.RpcError`
with a status code (the only exception class the backoff decorator is
configured to catch), `json_format.ParseError` from `ParseDict`, the
translator's `AssertionError`/`ValueError` from
`translate_message_to_dict`, and any other Python exception raised by the
wrapped callable. -/
inductive PyExc where
  | rpcError (status : GrpcStatus)
  | parseError
  | translationExc (e : TransErr)
  | otherExc (tag : String)
deriving Repr, DecidableEq

/-- The instance check `isinstance(e, grpc.RpcError)` performed by the
decorator `backoff.on_exception(backoff.expo, (grpc.RpcError,), ...)`;
`grpc.RpcError` is the base class of every transport error, whatever its
status code. -/
def isRpcError : PyExc → Bool
  | .rpcError _ => true
  | _ => false

/-- `MAX_RETRIES = 3` from `grpc_reflection_interface.py`. -/
def MAX_RETRIES : Nat := 3

/-- A protobuf message instance, modelled by its field map: declared field
names to current values.  A response message is modelled by its
`MessageToDict` image (the raw dict fed to `_get_clean_dict_value`). -/
abbrev Message := List (String × PyVal)

/-- A message type (the `proto_type` callable of the source): calling it
constructs the zero-value instance, in which every declared field holds its
declared default value. -/
structure ProtoType where
  fields : Message

/-- Assign field `k` of a message (the declared key set never changes). -/
def setField (msg : Message) (k : String) (v : PyVal) : Message :=
  msg.map (fun e => if e.fst = k then (k, v) else e)

/-- Modelled from the semantics of the external `google.protobuf.json_format`
library, which the source calls with the default `ignore_unknown_fields=False`
left in place, restricted to flat messages: walk the input dict; a key that
does not name a declared field raises `ParseError`; a key that does overwrites
that field; declared fields never mentioned keep their default values. -/
def parse_dict_into : List (String × PyVal) → Message → Except PyExc Message
  | [], msg => .ok msg
  | (k, v) :: rest, msg =>
    if (msg.map Prod.fst).contains k then parse_dict_into rest (setField msg k v)
    else .error .parseError

/-- `json_format.ParseDict(input_dict, input_message)` where `input_message`
is the freshly constructed zero-value instance of `proto_type`. -/
def parseDict (input_dict : List (String × PyVal)) (proto_type : ProtoType) :
    Except PyExc Message :=
  parse_dict_into input_dict proto_type.fields

/-- Modelled from the retry loop of the external `backoff` library
(`backoff.on_exception(wait_gen, exception, max_tries, ...)`; the source
passes `max_retries` as the third positional argument, which is `max_tries`,
the maximum TOTAL number of attempts).  Each iteration increments the try
counter and calls the decorated target (indexed here by the 0-based attempt
number, so stateful callables can be modelled); an exception that is not an
instance of the configured exception tuple (here `(grpc.RpcError,)`) escapes
the `try` immediately; a caught exception is re-raised once the try counter
equals `max_tries`, and otherwise the target is retried after an exponential
backoff sleep (irrelevant to the result).  With `max_tries = 0` the library
loop never gives up, so the model takes `fuel`, `none` meaning the loop did
not finish within `fuel` attempts.  Returns the result paired with the total
number of attempts made. -/
def backoff_retry_loop {α : Type} (max_tries : Nat) (target : Nat → Except PyExc α) :
    Nat → Nat → Option (Except PyExc α × Nat)
  | 0, _ => none
  | fuel + 1, tries =>
    match target tries with
    | .ok a => some (.ok a, tries + 1)
    | .error e =>
      if isRpcError e then
        if tries + 1 == max_tries then some (.error e, tries + 1)
        else backoff_retry_loop max_tries target fuel (tries + 1)
      else some (.error e, tries + 1)

/-- The decorator `backoff.on_exception(backoff.expo, (grpc.RpcError,),
max_tries)` applied to a target: run the retry loop from zero tries. -/
def on_exception {α : Type} (max_tries : Nat) (target : Nat → Except PyExc α)
    (fuel : Nat) : Option (Except PyExc α × Nat) :=
  backoff_retry_loop max_tries target fuel 0

/-- The bound grpc method callable (`method_callable` in the source), indexed
by the attempt number so that per-call behaviour can be modelled; it receives
the parsed input message and the `timeout`, `metadata` and `credentials`
arguments, and returns a response message or raises. -/
abbrev MethodCallable :=
  Nat → Message → Option Int → Option (List (String × String)) → Option Nat →
    Except PyExc Message

/-- The body of `invocation` in `_make_json_to_json_method_invocation`:
construct the zero-value input instance, populate it with
`json_format.ParseDict`, invoke the bound callable with `timeout`, `metadata`
and `credentials` (and nothing else), and translate the response via
`response_translation.translate_message_to_dict`, whose `MessageToDict` step
is the identity on our model of response messages and whose cleaning step is
`_get_clean_dict_value`. -/
def invocation_body (method_callable : MethodCallable) (proto_type : ProtoType)
    (input_dict : List (String × PyVal)) (timeout : Option Int)
    (metadata : Option (List (String × String))) (credentials : Option Nat)
    (attempt : Nat) : Except PyExc PyVal := do
  let input_message ← parseDict input_dict proto_type
  let response_as_message ← method_callable attempt input_message timeout metadata credentials
  match get_clean_dict_value response_as_message with
  | .ok response_as_dict => .ok response_as_dict
  | .error e => .error (.translationExc e)

/-- `_make_json_to_json_method_invocation(method_callable, proto_type,
max_retries)` and a call of the resulting `invocation`: the decorated body is
run under the backoff policy.  The `wait_for_ready` and `compression`
parameters are accepted, exactly as in the source signature, and never
forwarded to the body. -/
def make_json_to_json_method_invocation (method_callable : MethodCallable)
    (proto_type : ProtoType) (max_retries : Nat)
    (input_dict : List (String × PyVal)) (timeout : Option Int)
    (metadata : Option (List (String × String))) (credentials : Option Nat)
    (wait_for_ready : Option Bool) (compression : Option Int) (fuel : Nat) :
    Option (Except PyExc PyVal × Nat) :=
  on_exception max_retries
    (invocation_body method_callable proto_type input_dict timeout metadata credentials) fuel

theorem backoff_retry_loop_always_error {α : Type} (max_tries : Nat)
    (target : Nat → Except PyExc α) (e : PyExc) (he : isRpcError e = true)
    (htarget : ∀ i, target i = .error e) :
    ∀ fuel tries, tries < max_tries → max_tries ≤ tries + fuel →
      backoff_retry_loop max_tries target fuel tries = some (.error e, max_tries) := by
  intro fuel
  induction fuel with
  | zero => intro tries h1 h2; omega
  | succ fuel ih =>
    intro tries h1 h2
    rw [backoff_retry_loop]
    rw [htarget tries]
    simp only [he, if_true]
    by_cases hlast : tries + 1 = max_tries
    · simp [hlast]
    · have hbeq : (tries + 1 == max_tries) = false := by
        simp [hlast]
      rw [hbeq]
      simp only [Bool.false_eq_true, if_false, if_true]
      exact ih (tries + 1) (by omega) (by omega)

theorem backoff_retry_loop_uncaught {α : Type} (max_tries : Nat)
    (target : Nat → Except PyExc α) (e : PyExc) (he : isRpcError e = false)
    (htarget : target 0 = .error e) (fuel : Nat) (hfuel : 1 ≤ fuel) :
    backoff_retry_loop max_tries target fuel 0 = some (.error e, 1) := by
  cases fuel with
  | zero => omega
  | succ fuel =>
    rw [backoff_retry_loop]
    rw [htarget]
    simp [he]

theorem invocation_body_of_callable_error (method_callable : MethodCallable)
    (proto_type : ProtoType) (input_dict : List (String × PyVal))
    (timeout : Option Int) (metadata : Option (List (String × String)))
    (credentials : Option Nat) (msg₀ : Message) (e : PyExc) (i : Nat)
    (hparse : parseDict input_dict proto_type = .ok msg₀)
    (hmc : method_callable i msg₀ timeout metadata credentials = .error e) :
    invocation_body method_callable proto_type input_dict timeout metadata credentials i =
      .error e := by
  rw [invocation_body, hparse]
  simp [hmc]

theorem invocation_always_rpc_error (method_callable : MethodCallable)
    (proto_type : ProtoType) (input_dict : List (String × PyVal))
    (timeout : Option Int) (metadata : Option (List (String × String)))
    (credentials : Option Nat) (wait_for_ready : Option Bool) (compression : Option Int)
    (st : GrpcStatus) (N fuel : Nat) (msg₀ : Message)
    (hN : 1 ≤ N) (hfuel : N ≤ fuel)
    (hparse : parseDict input_dict proto_type = .ok msg₀)
    (hmc : ∀ i msg, method_callable i msg timeout metadata credentials =
      .error (.rpcError st)) :
    make_json_to_json_method_invocation method_callable proto_type N input_dict
        timeout metadata credentials wait_for_ready compression fuel =
      some (.error (.rpcError st), N) := by
  rw [make_json_to_json_method_invocation, on_exception]
  exact backoff_retry_loop_always_error N _ (.rpcError st) rfl
    (fun i => invocation_body_of_callable_error method_callable proto_type input_dict
      timeout metadata credentials msg₀ _ i hparse (hmc i msg₀))
    fuel 0 (by omega) (by omega)

theorem invocation_non_rpc_immediate (method_callable : MethodCallable)
    (proto_type : ProtoType) (input_dict : List (String × PyVal))
    (timeout : Option Int) (metadata : Option (List (String × String)))
    (credentials : Option Nat) (wait_for_ready : Option Bool) (compression : Option Int)
    (max_retries fuel : Nat) (msg₀ : Message) (e : PyExc)
    (he : isRpcError e = false) (hfuel : 1 ≤ fuel)
    (hparse : parseDict input_dict proto_type = .ok msg₀)
    (hmc : method_callable 0 msg₀ timeout metadata credentials = .error e) :
    make_json_to_json_method_invocation method_callable proto_type max_retries input_dict
        timeout metadata credentials wait_for_ready compression fuel =
      some (.error e, 1) := by
  rw [make_json_to_json_method_invocation, on_exception]
  exact backoff_retry_loop_uncaught max_retries _ e he
    (invocation_body_of_callable_error method_callable proto_type input_dict
      timeout metadata credentials msg₀ e 0 hparse hmc)
    fuel hfuel

/-- C2 counterexample: the invocation the code builds with `maxRetries = 3`
(its `MAX_RETRIES`), applied to a callable that always raises the transient
transport error UNAVAILABLE, calls the callable exactly 3 times — not 3 + 1 —
and then raises the final error: `max_retries` is passed to the backoff
library's `max_tries`, the TOTAL attempt bound. -/
theorem C2_counterexample :
    make_json_to_json_method_invocation
        (fun _ _ _ _ _ => .error (.rpcError .unavailable))
        ⟨[("value", PyVal.vint 0)]⟩ MAX_RETRIES [] none none none none none 10 =
      some (.error (.rpcError .unavailable), MAX_RETRIES) ∧ MAX_RETRIES ≠ MAX_RETRIES + 1 :=
  ⟨rfl, by decide⟩

/-- C2 amended: an invocation built with `maxRetries = N ≥ 1`, applied to a
callable that always raises a transient transport error, attempts the
underlying callable exactly `N` times (each attempt parses the same input and
invokes the callable once) and then raises the final error. -/
theorem C2_retry_bound (method_callable : MethodCallable)
    (proto_type : ProtoType) (input_dict : List (String × PyVal))
    (timeout : Option Int) (metadata : Option (List (String × String)))
    (credentials : Option Nat) (wait_for_ready : Option Bool) (compression : Option Int)
    (st : GrpcStatus) (N fuel : Nat) (msg₀ : Message)
    (hN : 1 ≤ N) (hfuel : N ≤ fuel)
    (hparse : parseDict input_dict proto_type = .ok msg₀)
    (hmc : ∀ i msg, method_callable i msg timeout metadata credentials =
      .error (.rpcError st)) :
    make_json_to_json_method_invocation method_callable proto_type N input_dict
        timeout metadata credentials wait_for_ready compression fuel =
      some (.error (.rpcError st), N) :=
  invocation_always_rpc_error method_callable proto_type input_dict timeout metadata
    credentials wait_for_ready compression st N fuel msg₀ hN hfuel hparse hmc

/-- Witness for the amended C2 at concrete inputs: `N = 2`, a callable always
raising DEADLINE_EXCEEDED, empty input dict. -/
theorem C2_retry_bound_witness :
    make_json_to_json_method_invocation
        (fun _ _ _ _ _ => .error (.rpcError .deadlineExceeded))
        ⟨[("value", PyVal.vint 0)]⟩ 2 [] none none none none none 5 =
      some (.error (.rpcError .deadlineExceeded), 2) :=
  C2_retry_bound (fun _ _ _ _ _ => .error (.rpcError .deadlineExceeded))
    ⟨[("value", PyVal.vint 0)]⟩ [] none none none none none
    .deadlineExceeded 2 5 [("value", PyVal.vint 0)]
    (by decide) (by decide) rfl (fun _ _ => rfl)

/-- C3 counterexample: a NOT_FOUND transport error is an instance of
`grpc.RpcError`, so the invocation retries it: with `MAX_RETRIES = 3` the
callable is attempted 3 times, not 1. -/
theorem C3_counterexample :
    make_json_to_json_method_invocation
        (fun _ _ _ _ _ => .error (.rpcError .notFound))
        ⟨[("value", PyVal.vint 0)]⟩ MAX_RETRIES [] none none none none none 10 =
      some (.error (.rpcError .notFound), MAX_RETRIES) ∧ MAX_RETRIES ≠ 1 :=
  ⟨rfl, by decide⟩

/-- C3 amended: the retry classification of the invocation wrapper is the
`isinstance(e, grpc.RpcError)` check: every error that is not a transport
`RpcError` propagates to the caller after a single attempt, untranslated and
with no retry, while every transport `RpcError` — whatever its status code,
NOT_FOUND included — is retried until `max_retries` total attempts. -/
theorem C3_retry_classification :
    (∀ (method_callable : MethodCallable) (proto_type : ProtoType)
        (input_dict : List (String × PyVal)) (timeout : Option Int)
        (metadata : Option (List (String × String))) (credentials : Option Nat)
        (wait_for_ready : Option Bool) (compression : Option Int)
        (max_retries fuel : Nat) (msg₀ : Message) (e : PyExc),
        isRpcError e = false → 1 ≤ fuel →
        parseDict input_dict proto_type = .ok msg₀ →
        method_callable 0 msg₀ timeout metadata credentials = .error e →
        make_json_to_json_method_invocation method_callable proto_type max_retries
            input_dict timeout metadata credentials wait_for_ready compression fuel =
          some (.error e, 1)) ∧
    (∀ (method_callable : MethodCallable) (proto_type : ProtoType)
        (input_dict : List (String × PyVal)) (timeout : Option Int)
        (metadata : Option (List (String × String))) (credentials : Option Nat)
        (wait_for_ready : Option Bool) (compression : Option Int)
        (st : GrpcStatus) (N fuel : Nat) (msg₀ : Message),
        1 ≤ N → N ≤ fuel →
        parseDict input_dict proto_type = .ok msg₀ →
        (∀ i msg, method_callable i msg timeout metadata credentials =
          .error (.rpcError st)) →
        make_json_to_json_method_invocation method_callable proto_type N input_dict
            timeout metadata credentials wait_for_ready compression fuel =
          some (.error (.rpcError st), N)) :=
  ⟨fun mc proto input t m c w comp mr fuel msg₀ e he hfuel hparse hmc =>
    invocation_non_rpc_immediate mc proto input t m c w comp mr fuel msg₀ e he hfuel
      hparse hmc,
   fun mc proto input t m c w comp st N fuel msg₀ hN hfuel hparse hmc =>
    invocation_always_rpc_error mc proto input t m c w comp st N fuel msg₀ hN hfuel
      hparse hmc⟩

/-- Witness for the amended C3: a non-transport error (a plain Python
exception) propagates after exactly one call; a NOT_FOUND transport error is
retried to 3 total calls. -/
theorem C3_retry_classification_witness :
    make_json_to_json_method_invocation (fun _ _ _ _ _ => .error (.otherExc "boom"))
        ⟨[("value", PyVal.vint 0)]⟩ MAX_RETRIES [] none none none none none 10 =
      some (.error (.otherExc "boom"), 1) ∧
    make_json_to_json_method_invocation (fun _ _ _ _ _ => .error (.rpcError .notFound))
        ⟨[("value", PyVal.vint 0)]⟩ 3 [] none none none none none 10 =
      some (.error (.rpcError .notFound), 3) :=
  ⟨C3_retry_classification.1 (fun _ _ _ _ _ => .error (.otherExc "boom"))
      ⟨[("value", PyVal.vint 0)]⟩ [] none none none none none MAX_RETRIES 10
      [("value", PyVal.vint 0)] (.otherExc "boom") rfl (by decide) rfl rfl,
   C3_retry_classification.2 (fun _ _ _ _ _ => .error (.rpcError .notFound))
      ⟨[("value", PyVal.vint 0)]⟩ [] none none none none none .notFound 3 10
      [("value", PyVal.vint 0)] (by decide) (by decide) rfl (fun _ _ => rfl)⟩

theorem setField_keys (msg : Message) (k : String) (v : PyVal) :
    (setField msg k v).map Prod.fst = msg.map Prod.fst := by
  induction msg with
  | nil => rfl
  | cons e rest ih =>
    simp only [setField, List.map_cons] at ih ⊢
    by_cases he : e.fst = k
    · simp [he, ih]
    · simp [he, ih]

theorem setField_mem_of_ne (msg : Message) (k k' : String) (v d : PyVal)
    (hne : k' ≠ k) (hmem : (k', d) ∈ msg) : (k', d) ∈ setField msg k v := by
  simp only [setField]
  refine List.mem_map.mpr ⟨(k', d), hmem, ?_⟩
  simp [hne]

theorem setField_mem_set (msg : Message) (k : String) (v : PyVal)
    (hmem : k ∈ msg.map Prod.fst) : (k, v) ∈ setField msg k v := by
  obtain ⟨e, he, hfst⟩ := List.mem_map.mp hmem
  simp only [setField]
  exact List.mem_map.mpr ⟨e, he, by simp [hfst]⟩

theorem parse_dict_into_spec (input : List (String × PyVal)) :
    ∀ msg : Message, (input.map Prod.fst).Nodup →
      (∀ k, k ∈ input.map Prod.fst → k ∈ msg.map Prod.fst) →
      ∃ msg', parse_dict_into input msg = .ok msg' ∧
        msg'.map Prod.fst = msg.map Prod.fst ∧
        (∀ k v, (k, v) ∈ input → (k, v) ∈ msg') ∧
        (∀ k d, (k, d) ∈ msg → k ∉ input.map Prod.fst → (k, d) ∈ msg') := by
  induction input with
  | nil =>
    intro msg _ _
    exact ⟨msg, rfl, rfl, by simp, fun k d h _ => h⟩
  | cons e rest ih =>
    obtain ⟨k₀, v₀⟩ := e
    intro msg hnd hsub
    have hk₀ : k₀ ∈ msg.map Prod.fst := hsub k₀ (by simp)
    rw [parse_dict_into]
    have hc : (msg.map Prod.fst).contains k₀ = true := by
      simpa using hk₀
    rw [hc]
    simp only [if_true]
    simp only [List.map_cons, List.nodup_cons] at hnd
    obtain ⟨hk₀rest, hndrest⟩ := hnd
    have hsub' : ∀ k, k ∈ rest.map Prod.fst → k ∈ (setField msg k₀ v₀).map Prod.fst := by
      intro k hk
      rw [setField_keys]
      exact hsub k (by simp [hk])
    obtain ⟨msg', hok, hkeys, hin, hkeep⟩ := ih (setField msg k₀ v₀) hndrest hsub'
    refine ⟨msg', hok, by rw [hkeys, setField_keys], ?_, ?_⟩
    · intro k v hkv
      rcases List.mem_cons.mp hkv with hkv | hkv
      · cases hkv
        exact hkeep k₀ v₀ (setField_mem_set msg k₀ v₀ hk₀) hk₀rest
      · exact hin k v hkv
    · intro k d hkd hknotin
      simp only [List.map_cons, List.mem_cons, not_or] at hknotin
      obtain ⟨hkne, hknotrest⟩ := hknotin
      exact hkeep k d (setField_mem_of_ne msg k₀ k v₀ d hkne hkd) hknotrest

theorem parse_dict_into_unknown (input : List (String × PyVal)) :
    ∀ msg : Message, (∃ k, k ∈ input.map Prod.fst ∧ k ∉ msg.map Prod.fst) →
      parse_dict_into input msg = .error .parseError := by
  induction input with
  | nil =>
    rintro msg ⟨k, hk, _⟩
    simp at hk
  | cons e rest ih =>
    obtain ⟨k₀, v₀⟩ := e
    rintro msg ⟨k, hk, hknot⟩
    rw [parse_dict_into]
    by_cases hc : (msg.map Prod.fst).contains k₀ = true
    · rw [hc]
      simp only [if_true]
      apply ih
      refine ⟨k, ?_, ?_⟩
      · simp only [List.map_cons] at hk
        rcases List.mem_cons.mp hk with rfl | hk'
        · exact absurd (by simpa using hc) hknot
        · exact hk'
      · rw [setField_keys]
        exact hknot
    · rw [Bool.not_eq_true] at hc
      rw [hc]
      simp

theorem invocation_body_of_parse_error (method_callable : MethodCallable)
    (proto_type : ProtoType) (input_dict : List (String × PyVal))
    (timeout : Option Int) (metadata : Option (List (String × String)))
    (credentials : Option Nat) (i : Nat)
    (hparse : parseDict input_dict proto_type = .error .parseError) :
    invocation_body method_callable proto_type input_dict timeout metadata credentials i =
      .error .parseError := by
  rw [invocation_body, hparse]
  rfl

/-- C4 counterexample: an input-map key that matches no declared field raises
`ParseError` (the source leaves `json_format.ParseDict`'s
`ignore_unknown_fields=False` default in place), and the error propagates out
of the invocation after a single attempt — it does not fall back to the
declared defaults. -/
theorem C4_counterexample :
    parseDict [("bogus", PyVal.vint 1)] ⟨[("value", PyVal.vint 0)]⟩ =
      .error .parseError ∧
    make_json_to_json_method_invocation (fun _ _ _ _ _ => .ok [("value", PyVal.vint 0)])
        ⟨[("value", PyVal.vint 0)]⟩ MAX_RETRIES [("bogus", PyVal.vint 1)]
        none none none none none 10 = some (.error .parseError, 1) :=
  ⟨rfl, rfl⟩

/-- C4 amended: on each call the invocation constructs a zero-value input
instance and populates it from the input map by structural field matching;
declared fields missing from the input keep their declared default values,
but a key not matching any declared field raises a `ParseError`, which
propagates out of the invocation after one attempt, unretried. -/
theorem C4_populate_with_defaults :
    (∀ (input_dict : List (String × PyVal)) (proto_type : ProtoType),
        (input_dict.map Prod.fst).Nodup →
        (∀ k, k ∈ input_dict.map Prod.fst → k ∈ proto_type.fields.map Prod.fst) →
        ∃ msg, parseDict input_dict proto_type = .ok msg ∧
          msg.map Prod.fst = proto_type.fields.map Prod.fst ∧
          (∀ k v, (k, v) ∈ input_dict → (k, v) ∈ msg) ∧
          (∀ k d, (k, d) ∈ proto_type.fields → k ∉ input_dict.map Prod.fst →
            (k, d) ∈ msg)) ∧
    (∀ (input_dict : List (String × PyVal)) (proto_type : ProtoType),
        (∃ k, k ∈ input_dict.map Prod.fst ∧ k ∉ proto_type.fields.map Prod.fst) →
        parseDict input_dict proto_type = .error .parseError) ∧
    (∀ (method_callable : MethodCallable) (proto_type : ProtoType)
        (input_dict : List (String × PyVal)) (timeout : Option Int)
        (metadata : Option (List (String × String))) (credentials : Option Nat)
        (wait_for_ready : Option Bool) (compression : Option Int) (fuel : Nat),
        1 ≤ fuel →
        parseDict input_dict proto_type = .error .parseError →
        make_json_to_json_method_invocation method_callable proto_type MAX_RETRIES
            input_dict timeout metadata credentials wait_for_ready compression fuel =
          some (.error .parseError, 1)) := by
  refine ⟨fun input proto hnd hsub => parse_dict_into_spec input proto.fields hnd hsub,
    fun input proto h => parse_dict_into_unknown input proto.fields h,
    fun mc proto input t m c w comp fuel hfuel hparse => ?_⟩
  rw [make_json_to_json_method_invocation, on_exception]
  exact backoff_retry_loop_uncaught MAX_RETRIES _ .parseError rfl
    (invocation_body_of_parse_error mc proto input t m c 0 hparse) fuel hfuel

/-- Witness for the amended C4: populating `{value: 7}` into a two-field
message keeps the untouched field's default; an unknown key errors; the error
leaves the invocation after one attempt. -/
theorem C4_populate_with_defaults_witness :
    (∃ msg, parseDict [("value", PyVal.vint 7)]
          ⟨[("value", PyVal.vint 0), ("other", PyVal.vstr "")]⟩ = .ok msg ∧
        msg.map Prod.fst =
          ([("value", PyVal.vint 0), ("other", PyVal.vstr "")].map Prod.fst) ∧
        (∀ k v, (k, v) ∈ [("value", PyVal.vint 7)] → (k, v) ∈ msg) ∧
        (∀ k d, (k, d) ∈ [("value", PyVal.vint 0), ("other", PyVal.vstr "")] →
          k ∉ [("value", PyVal.vint 7)].map
            (Prod.fst (β := PyVal)) → (k, d) ∈ msg)) ∧
    parseDict [("bogus", PyVal.vint 1)] ⟨[("value", PyVal.vint 0)]⟩ =
      .error .parseError ∧
    make_json_to_json_method_invocation (fun _ _ _ _ _ => .ok [])
        ⟨[("value", PyVal.vint 0)]⟩ MAX_RETRIES [("bogus", PyVal.vint 1)]
        none none none none none 4 = some (.error .parseError, 1) :=
  ⟨C4_populate_with_defaults.1 [("value", PyVal.vint 7)]
      ⟨[("value", PyVal.vint 0), ("other", PyVal.vstr "")]⟩ (by decide)
      (by intro k hk; simpa using Or.inl (by simpa using hk)),
   C4_populate_with_defaults.2.1 [("bogus", PyVal.vint 1)] ⟨[("value", PyVal.vint 0)]⟩
      ⟨"bogus", by decide, by decide⟩,
   C4_populate_with_defaults.2.2 (fun _ _ _ _ _ => .ok []) ⟨[("value", PyVal.vint 0)]⟩
      [("bogus", PyVal.vint 1)] none none none none none 4 (by decide) rfl⟩

/-- C10: the invocation accepts `wait_for_ready` and `compression` but never
forwards them to the underlying method callable: its behaviour and result are
identical whatever values are passed for them. -/
theorem C10_wait_for_ready_compression_ignored
    (method_callable : MethodCallable) (proto_type : ProtoType) (max_retries : Nat)
    (input_dict : List (String × PyVal)) (timeout : Option Int)
    (metadata : Option (List (String × String))) (credentials : Option Nat)
    (w₁ w₂ : Option Bool) (comp₁ comp₂ : Option Int) (fuel : Nat) :
    make_json_to_json_method_invocation method_callable proto_type max_retries input_dict
        timeout metadata credentials w₁ comp₁ fuel =
      make_json_to_json_method_invocation method_callable proto_type max_retries input_dict
        timeout metadata credentials w₂ comp₂ fuel := rfl

/-! ## Part 3: the dependency-resolving registry builder
    (`eagr/reflection/reflection_descriptor_database.py`) -/

/-- A parsed `FileDescriptorProto`, reduced to the two attributes the builder
reads: the declared `name` and the `dependency` name list.  Serialized blobs
are modelled as already parsed (`ParseFromString` belongs to the external
protobuf library and the builder always parses a blob before using it). -/
structure FileDescriptorProto where
  name : String
  dependency : List String
deriving Repr, DecidableEq

/-- The reflection service behind the stream: for each `file_by_filename`
request it answers with a list of file descriptor protos — possibly more than
the one requested, per the protocol's transitive-dependency guarantee. -/
abbrev ReflectionServer := String → List FileDescriptorProto

/-- `get_proto_bytes_for_requests(reflection_client, file_requests)`: issue
every request over the stream and concatenate the descriptor lists of all
responses, in order. -/
def get_proto_bytes_for_requests (server : ReflectionServer)
    (file_requests : List String) : List FileDescriptorProto :=
  (file_requests.map server).flatten

/-- One fetch round trip as observed from outside: the batched requests of a
single `get_proto_bytes_for_requests` call, with snapshots of the two memo
sets at the moment the batch was issued (observational instrumentation; the
source never branches on it). -/
structure FetchEvent where
  requested : List String
  imported_at : List String
  reflected_at : List String
deriving Repr, DecidableEq

/-- The state threaded through the registry build: the memo set
`imported_names` of already imported file names, the map `reflected_names` of
fetched-but-not-yet-imported names to their descriptors, and — observational
instrumentation — the ordered log `commits` of `descriptor_pool.Add` calls
and the log `fetch_log` of fetch round trips. -/
structure RegState where
  imported_names : List String
  reflected_names : List (String × FileDescriptorProto)
  commits : List FileDescriptorProto
  fetch_log : List FetchEvent
deriving Repr, DecidableEq

/-- The key list of the reflected map (Python `d.keys()`). -/
def reflKeys (st : RegState) : List String := st.reflected_names.map Prod.fst

/-- The names committed to the descriptor pool, in commit order. -/
def commitNames (st : RegState) : List String := st.commits.map FileDescriptorProto.name

/-- Python dict assignment `d[k] = v`: overwrite the existing entry in place,
or append a new one. -/
def dictInsert (m : List (String × FileDescriptorProto)) (k : String)
    (v : FileDescriptorProto) : List (String × FileDescriptorProto) :=
  if k ∈ m.map Prod.fst then
    m.map (fun e => if e.fst = k then (k, v) else e)
  else m ++ [(k, v)]

/-- The `for serialized_proto in file_descriptor_proto_bytes` loops: store
every returned descriptor in the reflected map under its declared name, in
order. -/
def insertAll (m : List (String × FileDescriptorProto))
    (ps : List FileDescriptorProto) : List (String × FileDescriptorProto) :=
  ps.foldl (fun m p => dictInsert m p.name p) m

/-- Python dict lookup `d[k]` (`none` is a `KeyError`). -/
def dictGet (m : List (String × FileDescriptorProto)) (k : String) :
    Option FileDescriptorProto :=
  match m with
  | [] => none
  | e :: rest => if e.fst = k then some e.snd else dictGet rest k

/-- Python `del d[k]`. -/
def dictRemove (m : List (String × FileDescriptorProto)) (k : String) :
    List (String × FileDescriptorProto) :=
  m.filter (fun e => e.fst ≠ k)

/-- The exceptions of `import_dependencies_then_proto`: the `RuntimeError`
raised when a planned import is neither already imported nor reflected, and
the `KeyError` a vanished dict entry would raise (unreachable on acyclic
graphs).  The model pairs the error with the state at the moment of the
raise: in Python the exception propagates before the call mutates anything
further. -/
inductive RegErr where
  | runtimeError
  | keyError
deriving Repr, DecidableEq

mutual

/-- `import_dependencies_then_proto(reflection_client, descriptor_pool,
proto_name, imported_names, reflected_names)`: return if already imported;
raise `RuntimeError` if not reflected; read the dependency list; fetch, in a
single batched round trip, exactly the dependencies found in neither memo
set, recording each returned proto under its declared name; recurse into
every dependency in declared order; then `Add` the proto to the pool, add its
name to `imported_names` and delete it from `reflected_names`.  `fuel` bounds
the recursion depth of the model: the Python recursion is unbounded and on a
cyclic graph never terminates, which the model renders as `none`. -/
def import_dependencies_then_proto (server : ReflectionServer) :
    Nat → String → RegState → Option (Except (RegErr × RegState) RegState)
  | 0, _, _ => none
  | fuel + 1, proto_name, st =>
    if proto_name ∈ st.imported_names then
      some (.ok st)
    else if proto_name ∉ reflKeys st then
      some (.error (.runtimeError, st))
    else
      match dictGet st.reflected_names proto_name with
      | none => some (.error (.keyError, st))
      | some proto =>
        let dependencies := proto.dependency
        let not_yet_reflected_dependencies := dependencies.filter (fun d =>
          decide (d ∉ st.imported_names ∧ d ∉ reflKeys st))
        let st₁ :=
          if not_yet_reflected_dependencies.isEmpty then st
          else
            let fetched :=
              get_proto_bytes_for_requests server not_yet_reflected_dependencies
            { st with
              reflected_names := insertAll st.reflected_names fetched,
              fetch_log := st.fetch_log ++
                [⟨not_yet_reflected_dependencies, st.imported_names, reflKeys st⟩] }
        match import_dependencies_list server fuel dependencies st₁ with
        | none => none
        | some (.error es) => some (.error es)
        | some (.ok st₂) =>
          match dictGet st₂.reflected_names proto_name with
          | none => some (.error (.keyError, st₂))
          | some proto₂ =>
            some (.ok { st₂ with
              imported_names := st₂.imported_names ++ [proto_name],
              reflected_names := dictRemove st₂.reflected_names proto_name,
              commits := st₂.commits ++ [proto₂] })
termination_by fuel _ _ => (fuel, 0)

/-- The `for dependency in dependencies` recursion of
`import_dependencies_then_proto`, and equally the top-level
`for proto_name in proto_names` loop of `add_protos_to_descriptor_pool`:
run `import_dependencies_then_proto` on each name in order, threading the
state; exceptions abort the loop. -/
def import_dependencies_list (server : ReflectionServer) :
    Nat → List String → RegState → Option (Except (RegErr × RegState) RegState)
  | _, [], st => some (.ok st)
  | fuel, d :: rest, st =>
    match import_dependencies_then_proto server fuel d st with
    | none => none
    | some (.error es) => some (.error es)
    | some (.ok st') => import_dependencies_list server fuel rest st'
termination_by fuel ds _ => (fuel, ds.length + 1)

end

/-- `add_protos_to_descriptor_pool(reflection_client, descriptor_pool,
file_descriptor_proto_bytes)`: start from an empty imported set and an empty
reflected map, load every root proto into the reflected map under its
declared name while stacking the names, then import each stacked name in
order. -/
def add_protos_to_descriptor_pool (server : ReflectionServer) (fuel : Nat)
    (root_protos : List FileDescriptorProto) :
    Option (Except (RegErr × RegState) RegState) :=
  let proto_names := root_protos.map FileDescriptorProto.name
  let reflected := insertAll [] root_protos
  import_dependencies_list server fuel proto_names
    { imported_names := [], reflected_names := reflected, commits := [], fetch_log := [] }

/-- The dependency graph a reflection service presents: every file name has a
fixed dependency list. -/
abbrev DepGraph := String → List String

/-- Every descriptor the server returns is the descriptor of its declared
name: its dependency list is that name's list in the graph. -/
def ServerConsistent (server : ReflectionServer) (G : DepGraph) : Prop :=
  ∀ n, ∀ p ∈ server n, p.dependency = G p.name

/-- A `file_by_filename` response contains at least the requested file. -/
def ServerAdequate (server : ReflectionServer) : Prop :=
  ∀ n, ∃ p ∈ server n, p.name = n

/-- The root descriptors agree with the graph. -/
def RootsConsistent (root_protos : List FileDescriptorProto) (G : DepGraph) : Prop :=
  ∀ p ∈ root_protos, p.dependency = G p.name

/-- Acyclicity of the dependency graph, witnessed by a rank function that
strictly decreases along dependency edges. -/
def RankDecreasing (G : DepGraph) (rank : String → Nat) : Prop :=
  ∀ n d, d ∈ G n → rank d < rank n

/-- Reachability along dependency edges (reflexive-transitive). -/
inductive Reach (G : DepGraph) : String → String → Prop
  | refl (n : String) : Reach G n n
  | step {a b c : String} : Reach G a b → c ∈ G b → Reach G a c

/-- A name list is post-ordered for `G` when every name appears strictly
after all of its dependencies: wherever the list splits as
`l₁ ++ n :: l₂`, every dependency of `n` already occurs in `l₁`. -/
def PostOrdered (G : DepGraph) (l : List String) : Prop :=
  ∀ l₁ n l₂, l = l₁ ++ n :: l₂ → ∀ d ∈ G n, d ∈ l₁

theorem snoc_eq_append_cons {α : Type} (l l₁ l₂ : List α) (n m : α)
    (h : l ++ [n] = l₁ ++ m :: l₂) :
    (l₂ = [] ∧ l₁ = l ∧ m = n) ∨ ∃ l₂', l = l₁ ++ m :: l₂' ∧ l₂ = l₂' ++ [n] := by
  rcases List.eq_nil_or_concat l₂ with rfl | ⟨l₂', a, rfl⟩
  · left
    have h2 := List.append_inj' h rfl
    exact ⟨rfl, h2.1.symm, by simpa using h2.2.symm⟩
  · right
    rw [List.concat_eq_append] at h
    rw [show l₁ ++ m :: (l₂' ++ [a]) = (l₁ ++ m :: l₂') ++ [a] by simp] at h
    have h2 := List.append_inj' h rfl
    have hna : n = a := by simpa using h2.2
    exact ⟨l₂', h2.1, by simp [List.concat_eq_append, hna]⟩

theorem postOrdered_nil (G : DepGraph) : PostOrdered G [] := by
  intro l₁ n l₂ h
  cases l₁ <;> simp at h

theorem postOrdered_mem_closed (G : DepGraph) (l : List String)
    (hpo : PostOrdered G l) (b : String) (hb : b ∈ l) (c : String) (hc : c ∈ G b) :
    c ∈ l := by
  obtain ⟨s, t, rfl⟩ := List.append_of_mem hb
  exact List.mem_append_left _ (hpo s b t rfl c hc)

theorem postOrdered_snoc (G : DepGraph) (l : List String) (n : String)
    (hpo : PostOrdered G l) (hdeps : ∀ d ∈ G n, d ∈ l) :
    PostOrdered G (l ++ [n]) := by
  intro l₁ m l₂ heq d hd
  rcases snoc_eq_append_cons l l₁ l₂ n m heq with ⟨rfl, rfl, rfl⟩ | ⟨l₂', hl, hl₂⟩
  · exact hdeps d hd
  · exact hpo l₁ m l₂' hl d hd

theorem reach_trans {G : DepGraph} {a b c : String}
    (hab : Reach G a b) (hbc : Reach G b c) : Reach G a c := by
  induction hbc with
  | refl => exact hab
  | step _ hd ih => exact Reach.step ih hd

theorem reach_step_head {G : DepGraph} {a b c : String}
    (hab : b ∈ G a) (hbc : Reach G b c) : Reach G a c :=
  reach_trans (Reach.step (Reach.refl a) hab) hbc

theorem reach_rank_le {G : DepGraph} {rank : String → Nat}
    (hrank : RankDecreasing G rank) {a b : String} (h : Reach G a b) :
    rank b ≤ rank a := by
  induction h with
  | refl => exact Nat.le_refl _
  | step _ hd ih =>
    have := hrank _ _ hd
    omega

theorem dictGet_none_iff (m : List (String × FileDescriptorProto)) (k : String) :
    dictGet m k = none ↔ k ∉ m.map Prod.fst := by
  induction m with
  | nil => simp [dictGet]
  | cons e rest ih =>
    rw [dictGet]
    by_cases he : e.fst = k
    · simp [he]
    · rw [if_neg he]
      simp only [List.map_cons, List.mem_cons]
      rw [ih]
      constructor
      · intro h hcon
        rcases hcon with hcon | hcon
        · exact he hcon.symm
        · exact h hcon
      · exact fun h hcon => h (Or.inr hcon)

theorem dictGet_some_mem (m : List (String × FileDescriptorProto)) (k : String)
    (v : FileDescriptorProto) (h : dictGet m k = some v) : (k, v) ∈ m := by
  induction m with
  | nil => simp [dictGet] at h
  | cons e rest ih =>
    rw [dictGet] at h
    by_cases he : e.fst = k
    · rw [if_pos he] at h
      cases h
      exact he ▸ List.mem_cons_self ..
    · rw [if_neg he] at h
      exact List.mem_cons_of_mem _ (ih h)

theorem dictGet_isSome_of_mem (m : List (String × FileDescriptorProto)) (k : String)
    (h : k ∈ m.map Prod.fst) : ∃ v, dictGet m k = some v := by
  cases hd : dictGet m k with
  | none => exact absurd ((dictGet_none_iff m k).mp hd) (by simpa using h)
  | some v => exact ⟨v, rfl⟩

theorem dictInsert_mem_keys (m : List (String × FileDescriptorProto)) (k : String)
    (v : FileDescriptorProto) : k ∈ (dictInsert m k v).map Prod.fst := by
  rw [dictInsert]
  by_cases hk : k ∈ m.map Prod.fst
  · rw [if_pos hk]
    obtain ⟨e, he, hfst⟩ := List.mem_map.mp hk
    refine List.mem_map.mpr ⟨(k, v), List.mem_map.mpr ⟨e, he, ?_⟩, rfl⟩
    simp [hfst]
  · rw [if_neg hk]
    simp

theorem dictInsert_keys_mono (m : List (String × FileDescriptorProto))
    (k k' : String) (v : FileDescriptorProto) (h : k' ∈ m.map Prod.fst) :
    k' ∈ (dictInsert m k v).map Prod.fst := by
  rw [dictInsert]
  by_cases hk : k ∈ m.map Prod.fst
  · rw [if_pos hk]
    obtain ⟨e, he, hfst⟩ := List.mem_map.mp h
    by_cases hek : e.fst = k
    · refine List.mem_map.mpr ⟨(k, v), List.mem_map.mpr ⟨e, he, by simp [hek]⟩, ?_⟩
      simp [← hfst, hek]
    · exact List.mem_map.mpr ⟨e, List.mem_map.mpr ⟨e, he, by simp [hek]⟩, hfst⟩
  · rw [if_neg hk]
    rw [List.map_append]
    exact List.mem_append_left _ h

theorem dictInsert_entry_cases (m : List (String × FileDescriptorProto)) (k : String)
    (v : FileDescriptorProto) (e : String × FileDescriptorProto)
    (h : e ∈ dictInsert m k v) : e = (k, v) ∨ e ∈ m := by
  rw [dictInsert] at h
  by_cases hk : k ∈ m.map Prod.fst
  · rw [if_pos hk] at h
    obtain ⟨e', he', hmapped⟩ := List.mem_map.mp h
    by_cases hek : e'.fst = k
    · left
      rw [if_pos hek] at hmapped
      exact hmapped.symm
    · right
      rw [if_neg hek] at hmapped
      exact hmapped ▸ he'
  · rw [if_neg hk] at h
    rcases List.mem_append.mp h with h | h
    · exact Or.inr h
    · exact Or.inl (by simpa using h)

theorem insertAll_entry_cases (ps : List FileDescriptorProto) :
    ∀ m e, e ∈ insertAll m ps → e ∈ m ∨ ∃ p ∈ ps, e = (p.name, p) := by
  induction ps with
  | nil => intro m e h; exact Or.inl h
  | cons p rest ih =>
    intro m e h
    rw [insertAll, List.foldl_cons] at h
    rcases ih (dictInsert m p.name p) e h with h' | ⟨p', hp', he⟩
    · rcases dictInsert_entry_cases m p.name p e h' with he | he
      · exact Or.inr ⟨p, List.mem_cons_self .., he⟩
      · exact Or.inl he
    · exact Or.inr ⟨p', List.mem_cons_of_mem _ hp', he⟩

theorem insertAll_keys_mono (ps : List FileDescriptorProto) :
    ∀ m k, k ∈ m.map Prod.fst → k ∈ (insertAll m ps).map Prod.fst := by
  induction ps with
  | nil => intro m k h; exact h
  | cons p rest ih =>
    intro m k h
    rw [insertAll, List.foldl_cons]
    exact ih (dictInsert m p.name p) k (dictInsert_keys_mono m p.name k p h)

theorem insertAll_mem_keys (ps : List FileDescriptorProto) :
    ∀ m p, p ∈ ps → p.name ∈ (insertAll m ps).map Prod.fst := by
  induction ps with
  | nil => intro m p h; simp at h
  | cons q rest ih =>
    intro m p hp
    rw [insertAll, List.foldl_cons]
    rcases List.mem_cons.mp hp with rfl | hp
    · exact insertAll_keys_mono rest _ _ (dictInsert_mem_keys m p.name p)
    · exact ih _ p hp

theorem dictRemove_mem (m : List (String × FileDescriptorProto)) (k : String)
    (e : String × FileDescriptorProto) (h : e ∈ dictRemove m k) : e ∈ m :=
  List.mem_of_mem_filter h

theorem dictRemove_keys (m : List (String × FileDescriptorProto)) (k k' : String) :
    k' ∈ (dictRemove m k).map Prod.fst ↔ k' ∈ m.map Prod.fst ∧ k' ≠ k := by
  constructor
  · intro h
    obtain ⟨e, he, hfst⟩ := List.mem_map.mp h
    have hm := List.mem_of_mem_filter he
    have hp := List.of_mem_filter he
    refine ⟨List.mem_map.mpr ⟨e, hm, hfst⟩, ?_⟩
    simp only [ne_eq, decide_eq_true_eq] at hp
    exact hfst ▸ hp
  · rintro ⟨h, hne⟩
    obtain ⟨e, he, hfst⟩ := List.mem_map.mp h
    refine List.mem_map.mpr ⟨e, List.mem_filter.mpr ⟨he, ?_⟩, hfst⟩
    simp only [ne_eq, decide_eq_true_eq]
    exact hfst ▸ hne

/-- The inductive invariant of the registry build. -/
structure StateInv (G : DepGraph) (st : RegState) : Prop where
  refl_ok : ∀ e ∈ st.reflected_names, e.snd.name = e.fst ∧ e.snd.dependency = G e.fst
  imp_eq : ∀ n, n ∈ st.imported_names ↔ n ∈ commitNames st
  commits_po : PostOrdered G (commitNames st)
  commits_deps : ∀ p ∈ st.commits, p.dependency = G p.name
  events_ok : ∀ ev ∈ st.fetch_log, ∀ m ∈ ev.requested,
    m ∉ ev.imported_at ∧ m ∉ ev.reflected_at

theorem imported_closed (G : DepGraph) (st : RegState) (inv : StateInv G st)
    (n : String) (hn : n ∈ st.imported_names) :
    ∀ m, Reach G n m → m ∈ st.imported_names := by
  intro m hm
  induction hm with
  | refl => exact hn
  | step _ hd ih =>
    have hb := (inv.imp_eq _).mp ih
    have := postOrdered_mem_closed G (commitNames st) inv.commits_po _ hb _ hd
    exact (inv.imp_eq _).mpr this

/-- What one successful `import_dependencies_then_proto` call guarantees. -/
def OneConc (G : DepGraph) (n : String) (st : RegState)
    (res : Option (Except (RegErr × RegState) RegState)) : Prop :=
  ∃ st' Δ Δf,
    res = some (.ok st') ∧
    StateInv G st' ∧
    st'.commits = st.commits ++ Δ ∧
    (∀ p ∈ Δ, Reach G n p.name) ∧
    (∀ k, k ∈ reflKeys st → k ∈ reflKeys st' ∨ k ∈ Δ.map FileDescriptorProto.name) ∧
    st'.fetch_log = st.fetch_log ++ Δf ∧
    Δf.length ≤ Δ.length ∧
    (∀ m, Reach G n m → m ∈ st'.imported_names) ∧
    (∀ m, m ∈ st.imported_names → m ∈ st'.imported_names)

/-- What one successful `import_dependencies_list` run guarantees. -/
def ListConc (G : DepGraph) (ds : List String) (st : RegState)
    (res : Option (Except (RegErr × RegState) RegState)) : Prop :=
  ∃ st' Δ Δf,
    res = some (.ok st') ∧
    StateInv G st' ∧
    st'.commits = st.commits ++ Δ ∧
    (∀ p ∈ Δ, ∃ d ∈ ds, Reach G d p.name) ∧
    (∀ k, k ∈ reflKeys st → k ∈ reflKeys st' ∨ k ∈ Δ.map FileDescriptorProto.name) ∧
    st'.fetch_log = st.fetch_log ++ Δf ∧
    Δf.length ≤ Δ.length ∧
    (∀ d ∈ ds, ∀ m, Reach G d m → m ∈ st'.imported_names) ∧
    (∀ m, m ∈ st.imported_names → m ∈ st'.imported_names)

theorem import_one_finish (G : DepGraph) (rank : String → Nat)
    (hrank : RankDecreasing G rank) (server : ReflectionServer) (fuel : Nat)
    (hlist : ∀ ds st, StateInv G st → (∀ d ∈ ds, rank d < fuel) →
      (∀ d ∈ ds, d ∈ st.imported_names ∨ d ∈ reflKeys st) →
      ListConc G ds st (import_dependencies_list server fuel ds st))
    (n : String) (st st₁ : RegState) (proto : FileDescriptorProto)
    (hdeps : proto.dependency = G n)
    (hrankn : rank n < fuel + 1)
    (inv₁ : StateInv G st₁)
    (himpeq : st₁.imported_names = st.imported_names)
    (hcomeq : st₁.commits = st.commits)
    (hlogeq : ∃ Λ, st₁.fetch_log = st.fetch_log ++ Λ ∧ Λ.length ≤ 1)
    (hkeys₀ : ∀ k, k ∈ reflKeys st → k ∈ reflKeys st₁)
    (hneq : n ∈ reflKeys st)
    (himp : n ∉ st.imported_names)
    (havaildeps : ∀ d ∈ G n, d ∈ st₁.imported_names ∨ d ∈ reflKeys st₁) :
    OneConc G n st
      (match import_dependencies_list server fuel proto.dependency st₁ with
       | none => none
       | some (.error es) => some (.error es)
       | some (.ok st₂) =>
         match dictGet st₂.reflected_names n with
         | none => some (.error (.keyError, st₂))
         | some proto₂ =>
           some (.ok { imported_names := st₂.imported_names ++ [n],
                       reflected_names := dictRemove st₂.reflected_names n,
                       commits := st₂.commits ++ [proto₂],
                       fetch_log := st₂.fetch_log })) := by
  obtain ⟨Λ, hlogeq, hΛ⟩ := hlogeq
  have hranks : ∀ d ∈ proto.dependency, rank d < fuel := by
    intro d hd
    rw [hdeps] at hd
    have := hrank n d hd
    omega
  have havail' : ∀ d ∈ proto.dependency, d ∈ st₁.imported_names ∨ d ∈ reflKeys st₁ :=
    fun d hd => havaildeps d (hdeps ▸ hd)
  obtain ⟨st₂, Δ₂, Δf₂, hres₂, inv₂, hcom₂, hreach₂, hkeys₂, hlog₂, hlen₂, himp₂, hmono₂⟩ :=
    hlist proto.dependency st₁ inv₁ hranks havail'
  simp only [hres₂]
  have hn₁ : n ∈ reflKeys st₁ := hkeys₀ n hneq
  have hn₂ : n ∈ reflKeys st₂ := by
    rcases hkeys₂ n hn₁ with h | h
    · exact h
    · exfalso
      obtain ⟨p, hp, hpname⟩ := List.mem_map.mp h
      obtain ⟨d, hd, hr⟩ := hreach₂ p hp
      rw [hdeps] at hd
      have h1 := hrank n d hd
      have h2 := reach_rank_le hrank hr
      rw [hpname] at h2
      omega
  obtain ⟨proto₂, hget₂⟩ := dictGet_isSome_of_mem st₂.reflected_names n hn₂
  have hnp₂ := inv₂.refl_ok _ (dictGet_some_mem _ _ _ hget₂)
  have hname₂ : proto₂.name = n := hnp₂.1
  have hdeps₂ : proto₂.dependency = G n := hnp₂.2
  simp only [hget₂]
  set stF : RegState :=
    { imported_names := st₂.imported_names ++ [n],
      reflected_names := dictRemove st₂.reflected_names n,
      commits := st₂.commits ++ [proto₂],
      fetch_log := st₂.fetch_log } with hstF
  have hcomF : commitNames stF = commitNames st₂ ++ [n] := by
    simp [commitNames, hstF, hname₂]
  have invF : StateInv G stF := by
    refine ⟨?_, ?_, ?_, ?_, ?_⟩
    · intro e he
      exact inv₂.refl_ok e (dictRemove_mem _ _ _ he)
    · intro m
      rw [hcomF]
      constructor
      · intro hm
        rcases List.mem_append.mp hm with hm | hm
        · exact List.mem_append_left _ ((inv₂.imp_eq m).mp hm)
        · exact List.mem_append_right _ hm
      · intro hm
        rcases List.mem_append.mp hm with hm | hm
        · exact List.mem_append_left _ ((inv₂.imp_eq m).mpr hm)
        · exact List.mem_append_right _ hm
    · rw [hcomF]
      apply postOrdered_snoc G _ n inv₂.commits_po
      intro d hd
      exact (inv₂.imp_eq d).mp (himp₂ d (hdeps ▸ hd) d (Reach.refl d))
    · intro p hp
      rcases List.mem_append.mp hp with hp | hp
      · exact inv₂.commits_deps p hp
      · have : p = proto₂ := by simpa using hp
        subst this
        rw [hname₂, hdeps₂]
    · exact inv₂.events_ok
  refine ⟨stF, Δ₂ ++ [proto₂], Λ ++ Δf₂, rfl, invF, ?_, ?_, ?_, ?_, ?_, ?_, ?_⟩
  · show st₂.commits ++ [proto₂] = st.commits ++ (Δ₂ ++ [proto₂])
    rw [hcom₂, hcomeq, List.append_assoc]
  · intro p hp
    rcases List.mem_append.mp hp with hp | hp
    · obtain ⟨d, hd, hr⟩ := hreach₂ p hp
      exact reach_step_head (hdeps ▸ hd) hr
    · have : p = proto₂ := by simpa using hp
      subst this
      rw [hname₂]
      exact Reach.refl n
  · intro k hk
    rcases hkeys₂ k (hkeys₀ k hk) with h | h
    · by_cases hkn : k = n
      · subst hkn
        right
        rw [List.map_append]
        refine List.mem_append_right _ ?_
        simp [hname₂]
      · left
        show k ∈ (dictRemove st₂.reflected_names n).map Prod.fst
        exact (dictRemove_keys _ _ _).mpr ⟨h, hkn⟩
    · right
      rw [List.map_append]
      exact List.mem_append_left _ h
  · show st₂.fetch_log = st.fetch_log ++ (Λ ++ Δf₂)
    rw [hlog₂, hlogeq, List.append_assoc]
  · rw [List.length_append, List.length_append]
    simp only [List.length_singleton]
    omega
  · intro m hm
    refine imported_closed G stF invF n ?_ m hm
    show n ∈ st₂.imported_names ++ [n]
    exact List.mem_append_right _ (List.mem_singleton.mpr rfl)
  · intro m hm
    show m ∈ st₂.imported_names ++ [n]
    exact List.mem_append_left _ (hmono₂ m (himpeq ▸ hm))

theorem import_one_spec (server : ReflectionServer) (G : DepGraph) (rank : String → Nat)
    (hsc : ServerConsistent server G) (hsa : ServerAdequate server)
    (hrank : RankDecreasing G rank) :
    ∀ fuel n st, StateInv G st → rank n < fuel →
      (n ∈ st.imported_names ∨ n ∈ reflKeys st) →
      OneConc G n st (import_dependencies_then_proto server fuel n st) := by
  intro fuel
  induction fuel with
  | zero => intro n st _ hr _; omega
  | succ fuel ih =>
    have hlist : ∀ ds st, StateInv G st → (∀ d ∈ ds, rank d < fuel) →
        (∀ d ∈ ds, d ∈ st.imported_names ∨ d ∈ reflKeys st) →
        ListConc G ds st (import_dependencies_list server fuel ds st) := by
      intro ds
      induction ds with
      | nil =>
        intro st inv _ _
        rw [import_dependencies_list]
        exact ⟨st, [], [], rfl, inv, by simp, by simp, fun k hk => Or.inl hk, by simp,
          by simp, by simp, fun m hm => hm⟩
      | cons d rest ihds =>
        intro st inv hranks havail
        obtain ⟨st₁, Δ₁, Δf₁, hres₁, inv₁, hcom₁, hreach₁, hkeys₁, hlog₁, hlen₁, himp₁,
            hmono₁⟩ :=
          ih d st inv (hranks d (List.mem_cons_self ..)) (havail d (List.mem_cons_self ..))
        rw [import_dependencies_list, hres₁]
        have havail₁ : ∀ d' ∈ rest, d' ∈ st₁.imported_names ∨ d' ∈ reflKeys st₁ := by
          intro d' hd'
          rcases havail d' (List.mem_cons_of_mem _ hd') with h | h
          · exact Or.inl (hmono₁ d' h)
          · rcases hkeys₁ d' h with h' | h'
            · exact Or.inr h'
            · left
              apply (inv₁.imp_eq d').mpr
              rw [commitNames, hcom₁]
              rw [List.map_append]
              exact List.mem_append_right _ h'
        obtain ⟨st₂, Δ₂, Δf₂, hres₂, inv₂, hcom₂, hreach₂, hkeys₂, hlog₂, hlen₂, himp₂,
            hmono₂⟩ :=
          ihds st₁ inv₁ (fun d' hd' => hranks d' (List.mem_cons_of_mem _ hd')) havail₁
        refine ⟨st₂, Δ₁ ++ Δ₂, Δf₁ ++ Δf₂, hres₂, inv₂, ?_, ?_, ?_, ?_, ?_, ?_, ?_⟩
        · rw [hcom₂, hcom₁, List.append_assoc]
        · intro p hp
          rcases List.mem_append.mp hp with hp | hp
          · exact ⟨d, List.mem_cons_self .., hreach₁ p hp⟩
          · obtain ⟨d', hd', hr⟩ := hreach₂ p hp
            exact ⟨d', List.mem_cons_of_mem _ hd', hr⟩
        · intro k hk
          rcases hkeys₁ k hk with h | h
          · rcases hkeys₂ k h with h' | h'
            · exact Or.inl h'
            · exact Or.inr (by rw [List.map_append]; exact List.mem_append_right _ h')
          · exact Or.inr (by rw [List.map_append]; exact List.mem_append_left _ h)
        · rw [hlog₂, hlog₁, List.append_assoc]
        · rw [List.length_append, List.length_append]
          omega
        · intro d' hd' m hm
          rcases List.mem_cons.mp hd' with rfl | hd'
          · exact hmono₂ m (himp₁ m hm)
          · exact himp₂ d' hd' m hm
        · exact fun m hm => hmono₂ m (hmono₁ m hm)
    intro n st inv hrankn havail
    by_cases himp : n ∈ st.imported_names
    · rw [import_dependencies_then_proto, if_pos himp]
      exact ⟨st, [], [], rfl, inv, by simp, by simp, fun k hk => Or.inl hk, by simp,
        by simp, fun m hm => imported_closed G st inv n himp m hm, fun m hm => hm⟩
    · have hrefl : n ∈ reflKeys st := havail.resolve_left himp
      obtain ⟨proto, hget⟩ := dictGet_isSome_of_mem st.reflected_names n hrefl
      have hnp := (inv.refl_ok _ (dictGet_some_mem _ _ _ hget))
      rw [import_dependencies_then_proto, if_neg himp, if_neg (not_not_intro hrefl)]
      simp only [hget]
      have hdeps : proto.dependency = G n := hnp.2
      by_cases hmiss : (List.filter (fun d =>
          decide (d ∉ st.imported_names ∧ d ∉ reflKeys st)) proto.dependency).isEmpty = true
      · rw [if_pos hmiss]
        apply import_one_finish G rank hrank server fuel hlist n st st proto hdeps hrankn
          inv rfl rfl ⟨[], (List.append_nil _).symm, by simp⟩ (fun k hk => hk) hrefl himp ?_
        intro d hd
        have hfe : List.filter (fun d =>
            decide (d ∉ st.imported_names ∧ d ∉ reflKeys st)) proto.dependency = [] :=
          List.isEmpty_iff.mp hmiss
        by_cases h1 : d ∈ st.imported_names
        · exact Or.inl h1
        by_cases h2 : d ∈ reflKeys st
        · exact Or.inr h2
        exfalso
        have hdin : d ∈ List.filter (fun d =>
            decide (d ∉ st.imported_names ∧ d ∉ reflKeys st)) proto.dependency :=
          List.mem_filter.mpr ⟨hdeps ▸ hd, by simp [h1, h2]⟩
        rw [hfe] at hdin
        simp at hdin
      · rw [if_neg hmiss]
        apply import_one_finish G rank hrank server fuel hlist n st _ proto hdeps hrankn
          ?_ ?_ ?_ ?_ ?_ hrefl himp ?_
        · refine ⟨?_, inv.imp_eq, inv.commits_po, inv.commits_deps, ?_⟩
          · intro e he
            rcases insertAll_entry_cases _ _ e he with he' | ⟨p, hp, he'⟩
            · exact inv.refl_ok e he'
            · subst he'
              refine ⟨rfl, ?_⟩
              rw [get_proto_bytes_for_requests, List.mem_flatten] at hp
              obtain ⟨l, hl, hpl⟩ := hp
              obtain ⟨d', hd', hld⟩ := List.mem_map.mp hl
              exact hsc d' p (hld ▸ hpl)
          · intro ev hev m hm
            rcases List.mem_append.mp hev with hev | hev
            · exact inv.events_ok ev hev m hm
            · have hev' : ev = ⟨List.filter (fun d =>
                  decide (d ∉ st.imported_names ∧ d ∉ reflKeys st)) proto.dependency,
                  st.imported_names, reflKeys st⟩ := by simpa using hev
              subst hev'
              have hm' : m ∈ List.filter (fun d =>
                  decide (d ∉ st.imported_names ∧ d ∉ reflKeys st)) proto.dependency := hm
              have hp := (List.mem_filter.mp hm').2
              simp only [decide_eq_true_eq] at hp
              exact hp
        · rfl
        · rfl
        · exact ⟨_, rfl, by simp⟩
        · intro k hk
          exact insertAll_keys_mono _ _ _ hk
        · intro d hd
          by_cases h1 : d ∈ st.imported_names
          · exact Or.inl h1
          by_cases h2 : d ∈ reflKeys st
          · exact Or.inr (insertAll_keys_mono _ _ _ h2)
          right
          have hdmiss : d ∈ List.filter (fun d =>
              decide (d ∉ st.imported_names ∧ d ∉ reflKeys st)) proto.dependency :=
            List.mem_filter.mpr ⟨hdeps ▸ hd, by simp [h1, h2]⟩
          obtain ⟨p, hp, hpname⟩ := hsa d
          have hpf : p ∈ get_proto_bytes_for_requests server (List.filter (fun d =>
              decide (d ∉ st.imported_names ∧ d ∉ reflKeys st)) proto.dependency) := by
            rw [get_proto_bytes_for_requests, List.mem_flatten]
            exact ⟨server d, List.mem_map_of_mem server hdmiss, hp⟩
          have hk := insertAll_mem_keys _ st.reflected_names p hpf
          rw [hpname] at hk
          exact hk

theorem import_list_spec (server : ReflectionServer) (G : DepGraph) (rank : String → Nat)
    (hsc : ServerConsistent server G) (hsa : ServerAdequate server)
    (hrank : RankDecreasing G rank) (fuel : Nat) :
    ∀ ds st, StateInv G st → (∀ d ∈ ds, rank d < fuel) →
      (∀ d ∈ ds, d ∈ st.imported_names ∨ d ∈ reflKeys st) →
      ListConc G ds st (import_dependencies_list server fuel ds st) := by
  intro ds
  induction ds with
  | nil =>
    intro st inv _ _
    rw [import_dependencies_list]
    exact ⟨st, [], [], rfl, inv, by simp, by simp, fun k hk => Or.inl hk, by simp,
      by simp, by simp, fun m hm => hm⟩
  | cons d rest ihds =>
    intro st inv hranks havail
    obtain ⟨st₁, Δ₁, Δf₁, hres₁, inv₁, hcom₁, hreach₁, hkeys₁, hlog₁, hlen₁, himp₁,
        hmono₁⟩ :=
      import_one_spec server G rank hsc hsa hrank fuel d st inv
        (hranks d (List.mem_cons_self ..)) (havail d (List.mem_cons_self ..))
    rw [import_dependencies_list, hres₁]
    have havail₁ : ∀ d' ∈ rest, d' ∈ st₁.imported_names ∨ d' ∈ reflKeys st₁ := by
      intro d' hd'
      rcases havail d' (List.mem_cons_of_mem _ hd') with h | h
      · exact Or.inl (hmono₁ d' h)
      · rcases hkeys₁ d' h with h' | h'
        · exact Or.inr h'
        · left
          apply (inv₁.imp_eq d').mpr
          rw [commitNames, hcom₁, List.map_append]
          exact List.mem_append_right _ h'
    obtain ⟨st₂, Δ₂, Δf₂, hres₂, inv₂, hcom₂, hreach₂, hkeys₂, hlog₂, hlen₂, himp₂,
        hmono₂⟩ :=
      ihds st₁ inv₁ (fun d' hd' => hranks d' (List.mem_cons_of_mem _ hd')) havail₁
    refine ⟨st₂, Δ₁ ++ Δ₂, Δf₁ ++ Δf₂, hres₂, inv₂, ?_, ?_, ?_, ?_, ?_, ?_, ?_⟩
    · rw [hcom₂, hcom₁, List.append_assoc]
    · intro p hp
      rcases List.mem_append.mp hp with hp | hp
      · exact ⟨d, List.mem_cons_self .., hreach₁ p hp⟩
      · obtain ⟨d', hd', hr⟩ := hreach₂ p hp
        exact ⟨d', List.mem_cons_of_mem _ hd', hr⟩
    · intro k hk
      rcases hkeys₁ k hk with h | h
      · rcases hkeys₂ k h with h' | h'
        · exact Or.inl h'
        · exact Or.inr (by rw [List.map_append]; exact List.mem_append_right _ h')
      · exact Or.inr (by rw [List.map_append]; exact List.mem_append_left _ h)
    · rw [hlog₂, hlog₁, List.append_assoc]
    · rw [List.length_append, List.length_append]
      omega
    · intro d' hd' m hm
      rcases List.mem_cons.mp hd' with rfl | hd'
      · exact hmono₂ m (himp₁ m hm)
      · exact himp₂ d' hd' m hm
    · exact fun m hm => hmono₂ m (hmono₁ m hm)

theorem initial_state_inv (G : DepGraph) (root_protos : List FileDescriptorProto)
    (hroots : RootsConsistent root_protos G) :
    StateInv G { imported_names := [], reflected_names := insertAll [] root_protos,
                 commits := [], fetch_log := [] } := by
  refine ⟨?_, by simp [commitNames], postOrdered_nil G, by simp, by simp⟩
  intro e he
  rcases insertAll_entry_cases _ _ e he with he' | ⟨p, hp, he'⟩
  · simp at he'
  · subst he'
    exact ⟨rfl, hroots p hp⟩

/-- C8: a call of `import_dependencies_then_proto` on a name already in the
imported set returns immediately as a no-op with the state unchanged;
a call on a name in neither the imported set nor the reflected map raises the
fatal `RuntimeError` internal-consistency fault, with the registry state
unchanged at the moment of the raise. -/
theorem C8_import_guard (server : ReflectionServer) (fuel : Nat) (proto_name : String)
    (st : RegState) :
    (proto_name ∈ st.imported_names →
      import_dependencies_then_proto server (fuel + 1) proto_name st = some (.ok st)) ∧
    (proto_name ∉ st.imported_names → proto_name ∉ reflKeys st →
      import_dependencies_then_proto server (fuel + 1) proto_name st =
        some (.error (.runtimeError, st))) := by
  constructor
  · intro h
    rw [import_dependencies_then_proto, if_pos h]
  · intro h1 h2
    rw [import_dependencies_then_proto, if_neg h1, if_pos h2]

/-- Witness for C8 at a concrete state: `"a"` is already imported (no-op);
`"zzz"` is neither imported nor reflected (RuntimeError, state carried
unchanged). -/
theorem C8_witness :
    import_dependencies_then_proto (fun _ => []) 1 "a"
        (RegState.mk ["a"] [] [] []) =
      some (.ok (RegState.mk ["a"] [] [] [])) ∧
    import_dependencies_then_proto (fun _ => []) 1 "zzz"
        (RegState.mk ["a"] [] [] []) =
      some (.error (.runtimeError, RegState.mk ["a"] [] [] [])) :=
  ⟨(C8_import_guard (fun _ => []) 0 "a" _).1 (by simp),
   (C8_import_guard (fun _ => []) 0 "zzz" _).2 (by simp) (by simp [reflKeys])⟩

/-- C1: for every acyclic dependency graph (witnessed by a rank function
decreasing along edges), given a consistent and adequate reflection server
and enough fuel, `add_protos_to_descriptor_pool` completes successfully; the
imported set of the final state contains every name reachable from the root
protos; the imported set is exactly the set of names committed to the
descriptor pool; and the commit order is post-order: wherever the commit list
splits as `l₁ ++ A :: l₂`, every dependency of `A` is already in `l₁` —
each dependency is committed strictly before its dependent. -/
theorem C1_postorder_registry_build (server : ReflectionServer) (G : DepGraph)
    (rank : String → Nat) (root_protos : List FileDescriptorProto) (fuel : Nat)
    (hsc : ServerConsistent server G) (hsa : ServerAdequate server)
    (hroots : RootsConsistent root_protos G) (hrank : RankDecreasing G rank)
    (hfuel : ∀ p ∈ root_protos, rank p.name < fuel) :
    ∃ st', add_protos_to_descriptor_pool server fuel root_protos = some (.ok st') ∧
      (∀ p ∈ root_protos, ∀ m, Reach G p.name m → m ∈ st'.imported_names) ∧
      (∀ n, n ∈ st'.imported_names ↔ n ∈ commitNames st') ∧
      PostOrdered G (commitNames st') := by
  obtain ⟨st', Δ, Δf, hres, inv', _, _, _, _, _, himp, _⟩ :=
    import_list_spec server G rank hsc hsa hrank fuel
      (root_protos.map FileDescriptorProto.name)
      { imported_names := [], reflected_names := insertAll [] root_protos,
        commits := [], fetch_log := [] }
      (initial_state_inv G root_protos hroots)
      (by intro d hd
          obtain ⟨p, hp, rfl⟩ := List.mem_map.mp hd
          exact hfuel p hp)
      (by intro d hd
          obtain ⟨p, hp, rfl⟩ := List.mem_map.mp hd
          exact Or.inr (by simpa [reflKeys] using insertAll_mem_keys _ [] p hp))
  refine ⟨st', ?_, ?_, inv'.imp_eq, inv'.commits_po⟩
  · rw [add_protos_to_descriptor_pool]
    exact hres
  · intro p hp m hm
    exact himp p.name (List.mem_map_of_mem _ hp) m hm

/-- Witness for C1: graph `b → c`, root `b`, a server answering every request
with the requested file; the build succeeds, imports both `b` and `c`, and
its commit order is post-ordered. -/
theorem C1_witness :
    ∃ st', add_protos_to_descriptor_pool
        (fun n => [⟨n, if n = "b" then ["c"] else []⟩]) 2
        [⟨"b", ["c"]⟩] = some (.ok st') ∧
      "b" ∈ st'.imported_names ∧ "c" ∈ st'.imported_names ∧
      PostOrdered (fun n => if n = "b" then ["c"] else []) (commitNames st') := by
  obtain ⟨st', hres, himp, _, hpo⟩ :=
    C1_postorder_registry_build
      (fun n => [⟨n, if n = "b" then ["c"] else []⟩])
      (fun n => if n = "b" then ["c"] else [])
      (fun n => if n = "b" then 1 else 0)
      [⟨"b", ["c"]⟩] 2
      (by intro n p hp
          simp at hp
          subst hp
          rfl)
      (fun n => ⟨⟨n, if n = "b" then ["c"] else []⟩, by simp, rfl⟩)
      (by intro p hp
          simp at hp
          subst hp
          simp)
      (by intro n d hd
          by_cases hn : n = "b"
          · subst hn
            simp only [if_pos rfl] at hd ⊢
            simp at hd
            subst hd
            simp
          · simp only [if_neg hn] at hd
            simp at hd)
      (by intro p hp
          simp at hp
          subst hp
          simp)
  refine ⟨st', hres, ?_, ?_, hpo⟩
  · exact himp ⟨"b", ["c"]⟩ (by simp) "b" (Reach.refl "b")
  · exact himp ⟨"b", ["c"]⟩ (by simp) "c"
      (Reach.step (Reach.refl "b") (by simp))

/-- C7: in every successful registry build, every name in every fetch request
batch was, at the moment the batch was issued, neither in the imported set nor
in the reflected map (a dependency present in either set is never fetched),
and the number of fetch round trips is at most the number of commits — the
missing dependencies of each processed file are fetched in one single batched
round trip. -/
theorem C7_fetch_minimality (server : ReflectionServer) (G : DepGraph)
    (rank : String → Nat) (root_protos : List FileDescriptorProto) (fuel : Nat)
    (hsc : ServerConsistent server G) (hsa : ServerAdequate server)
    (hroots : RootsConsistent root_protos G) (hrank : RankDecreasing G rank)
    (hfuel : ∀ p ∈ root_protos, rank p.name < fuel) :
    ∃ st', add_protos_to_descriptor_pool server fuel root_protos = some (.ok st') ∧
      (∀ ev ∈ st'.fetch_log, ∀ m ∈ ev.requested,
        m ∉ ev.imported_at ∧ m ∉ ev.reflected_at) ∧
      st'.fetch_log.length ≤ st'.commits.length := by
  obtain ⟨st', Δ, Δf, hres, inv', hcom, _, _, hlog, hlen, _, _⟩ :=
    import_list_spec server G rank hsc hsa hrank fuel
      (root_protos.map FileDescriptorProto.name)
      { imported_names := [], reflected_names := insertAll [] root_protos,
        commits := [], fetch_log := [] }
      (initial_state_inv G root_protos hroots)
      (by intro d hd
          obtain ⟨p, hp, rfl⟩ := List.mem_map.mp hd
          exact hfuel p hp)
      (by intro d hd
          obtain ⟨p, hp, rfl⟩ := List.mem_map.mp hd
          exact Or.inr (by simpa [reflKeys] using insertAll_mem_keys _ [] p hp))
  refine ⟨st', ?_, inv'.events_ok, ?_⟩
  · rw [add_protos_to_descriptor_pool]
    exact hres
  · rw [hcom, hlog]
    simpa using hlen

/-- Witness for C7: the `b → c` build of the C1 witness; its fetch log obeys
the minimality property and has at most as many round trips as commits. -/
theorem C7_witness :
    ∃ st', add_protos_to_descriptor_pool
        (fun n => [⟨n, if n = "b" then ["c"] else []⟩]) 2
        [⟨"b", ["c"]⟩] = some (.ok st') ∧
      (∀ ev ∈ st'.fetch_log, ∀ m ∈ ev.requested,
        m ∉ ev.imported_at ∧ m ∉ ev.reflected_at) ∧
      st'.fetch_log.length ≤ st'.commits.length := by
  exact C7_fetch_minimality
      (fun n => [⟨n, if n = "b" then ["c"] else []⟩])
      (fun n => if n = "b" then ["c"] else [])
      (fun n => if n = "b" then 1 else 0)
      [⟨"b", ["c"]⟩] 2
      (by intro n p hp
          simp at hp
          subst hp
          rfl)
      (fun n => ⟨⟨n, if n = "b" then ["c"] else []⟩, by simp, rfl⟩)
      (by intro p hp
          simp at hp
          subst hp
          simp)
      (by intro n d hd
          by_cases hn : n = "b"
          · subst hn
            simp only [if_pos rfl] at hd ⊢
            simp at hd
            subst hd
            simp
          · simp only [if_neg hn] at hd
            simp at hd)
      (by intro p hp
          simp at hp
          subst hp
          simp)

end Eagr

